import Mathlib

/-!
Verification development for the `blazes_iter` lazy-iterator library.

The embedding is shallow: a lazy-sequence producer (a restartable generator)
is modeled by the finite list of values it yields; generators that can run
unboundedly (the numeric range generator, `cycle`) are modeled by a
fuel-indexed pull function giving the first `fuel` yields.  JavaScript
numbers are used by the library only as integers, so they are modeled by
`Int` (lengths may go negative, so `Int` rather than `Nat`); JS `%` is the
truncated remainder `Int.tmod`, `Math.floor` of an integer quotient is
`Int.fdiv`, and `Math.ceil (a / b)` is `-Int.fdiv (-a) b`.
-/

namespace Producers

/-! Combinator library (`src/iter/utils.ts`, duplicated verbatim in the
unnamed source file).  A producer argument `gen : List α` stands for the
sequence of values the generator `gen()` yields. -/

/-- Loop of `take(n)`: a counter `i` starts at 0; each element is dropped
once `i === n`, otherwise yielded with `i++`.  (In the source the
comparison is `i === n`, so a negative `n` is never reached and everything
is yielded.) -/
def takeAux {α : Type} (n : Int) : Int → List α → List α
  | _, [] => []
  | i, a :: rest => if i = n then [] else a :: takeAux n (i + 1) rest

/-- Combinator `take(n)(gen)` from utils.ts. -/
def take {α : Type} (n : Int) (gen : List α) : List α := takeAux n 0 gen

/-- Loop of `skip(n)`: a counter starts at `n` and is decremented for every
element; elements are yielded exactly when the counter is `<= 0`. -/
def skipAux {α : Type} : Int → List α → List α
  | _, [] => []
  | k, a :: rest => if k ≤ 0 then a :: skipAux (k - 1) rest else skipAux (k - 1) rest

/-- Combinator `skip(n)(gen)` from utils.ts. -/
def skip {α : Type} (n : Int) (gen : List α) : List α := skipAux n gen

/-- Combinator `skipWhile(fn)(gen)` from utils.ts.  The source body is
`for (const item of gen()) { if (fn(item)) continue; yield item; }` —
note there is no flag recording that skipping has ended, so every element
satisfying `fn` is dropped, not only the leading run. -/
def skipWhile {α : Type} (fn : α → Bool) : List α → List α
  | [] => []
  | a :: rest => if fn a then skipWhile fn rest else a :: skipWhile fn rest

/-- Terminal combinator `fold(init, fn)(gen)` from utils.ts: left-to-right accumulation. -/
def fold {α β : Type} (init : β) (fn : β → α → β) : List α → β
  | [] => init
  | a :: rest => fold (fn init a) fn rest

/-- Terminal combinator `reduce(fn)(gen)` from utils.ts: pull the first element; if the source
is already done return `undefined` (here `none`), otherwise accumulate the
remaining elements starting from the first one. -/
def reduce {α : Type} (fn : α → α → α) : List α → Option α
  | [] => none
  | a :: rest => some (fold a fn rest)

/-- First `n` yields of `cycle(gen)` from utils.ts
(`while (true) yield* gen();`), for a producer yielding `g`.  For nonempty
`g` the cycled generator is the infinite stream `g ++ g ++ ⋯`, and `n`
copies of `g` always cover its first `n` elements.  For `g = []` the
source generator loops forever yielding nothing (a consumer hangs); this
model is only used under a nonemptiness hypothesis. -/
def cycleTake {α : Type} (g : List α) (n : Nat) : List α :=
  ((List.replicate n g).flatten).take n

/-- Base-tier iterator (`src/iter/iter.ts` class `Iter`): wraps one
producer. -/
structure Iter (α : Type) where
  gen : List α
deriving DecidableEq

/-- Exact-sized tier (`exact_sized.ts` class `ExactSizedIter`): a producer
plus the declared length `_len` (a JS number, so `Int`: the source can
store negative values). -/
structure ExactSizedIter (α : Type) where
  gen : List α
  len : Int
deriving DecidableEq

/-- Double-ended tier (`double_ended.ts` class `DoubleEndedIter`): forward
and reverse producers plus a declared length. -/
structure DoubleEndedIter (α : Type) where
  gen : List α
  rgen : List α
  len : Int
deriving DecidableEq

/-- Method `Iter.take`: `return new ExactSizedIter(take(n)(this._gen), n)` —
the declared length is `n` itself. -/
def Iter.take {α : Type} (it : Iter α) (n : Int) : ExactSizedIter α :=
  ⟨Producers.take n it.gen, n⟩

/-- Method `ExactSizedIter.take`: `new ExactSizedIter(take(n)(this._gen), n)`. -/
def ExactSizedIter.take {α : Type} (it : ExactSizedIter α) (n : Int) : ExactSizedIter α :=
  ⟨Producers.take n it.gen, n⟩

/-- Method `ExactSizedIter.skip`: `new ExactSizedIter(skip(n)(this._gen), this._len - n)`. -/
def ExactSizedIter.skip {α : Type} (it : ExactSizedIter α) (n : Int) : ExactSizedIter α :=
  ⟨Producers.skip n it.gen, it.len - n⟩

/-- Method `DoubleEndedIter.skip`: both producers are skipped, and the length
becomes `this._len - n`. -/
def DoubleEndedIter.skip {α : Type} (it : DoubleEndedIter α) (n : Int) : DoubleEndedIter α :=
  ⟨Producers.skip n it.gen, Producers.skip n it.rgen, it.len - n⟩

/-- Direct iteration of an `ExactSizedIter` (its `[Symbol.iterator]`
override): pull from `_gen()`, breaking as soon as the yield counter
reaches `_len`.  The loop is literally the body of `take(_len)`, so the
model reuses `takeAux`. -/
def ExactSizedIter.iterate {α : Type} (it : ExactSizedIter α) : List α :=
  takeAux it.len 0 it.gen

/-- Direct iteration of `it.cycle()`:
`cycle()` returns `new ExactSizedIter(cycle(this._gen), this._len)`, so
its `[Symbol.iterator]` pulls at most `_len` elements from the cycled
stream.  For `it.len ≥ 0` and a nonempty producer that is the first
`it.len.toNat` elements of `gen ++ gen ++ ⋯` (for an empty producer the
source hangs instead; see `cycleTake`). -/
def ExactSizedIter.cycleIterate {α : Type} (it : ExactSizedIter α) : List α :=
  cycleTake it.gen it.len.toNat

end Producers

namespace Ranges

/-! The range generator (`src/iter/range.ts`).  A `rangeGen(start, end,
step)` closure is modeled by the record of its three captured arguments,
and one pull function interprets it. -/

/-- The arguments captured by a `rangeGen` closure (`end` is a reserved
word, hence `endv`). -/
structure GenArgs where
  start : Int
  endv : Int
  step : Int
deriving DecidableEq

/-- Closure creation `rangeGen(start, end, step)` just records its arguments; the loop
semantics live in `rangeGenLoop`. -/
def rangeGen (start endv step : Int) : GenArgs := ⟨start, endv, step⟩

/-- The loop guard of `rangeGen`: `const min = Math.min(start, end)` is
computed once, and the guard is `min === start ? i < end : i > end`. -/
def rangeGenCond (start endv i : Int) : Bool :=
  if min start endv = start then decide (i < endv) else decide (i > endv)

/-- At most `fuel` yields of the `rangeGen` loop
`for (let i = start; guard; i += step) yield i`, starting at `i`.
The source loop can be infinite (e.g. a guard the step direction never
falsifies), hence the fuel.  The generator body also throws on
`step === 0` at the first pull; that branch is unreachable from `range`
and `irange` below, which validate `step ≠ 0` before building any
producer, and no theorem here pulls from a zero-step producer. -/
def rangeGenLoop (g : GenArgs) : Nat → Int → List Int
  | 0, _ => []
  | fuel + 1, i =>
    if rangeGenCond g.start g.endv i then i :: rangeGenLoop g fuel (i + g.step)
    else []

/-- First `fuel` yields of the generator `rangeGen(g.start, g.endv,
g.step)()`, from the top. -/
def rangeGenTake (g : GenArgs) (fuel : Nat) : List Int :=
  rangeGenLoop g fuel g.start

/-- Totality predicate: `g` terminates yielding exactly the finite sequence `l`: every
fuel-bounded run produces the corresponding prefix of `l` (so in
particular running with fuel `l.length` or more yields all of `l` and
nothing further). -/
def producerYields (g : GenArgs) (l : List Int) : Prop :=
  ∀ fuel : Nat, rangeGenTake g fuel = l.take fuel

/-- The double-ended iterator built by the range constructors
(`double_ended.ts` class `DoubleEndedIter`, specialized to the `rangeGen`
producers the constructors install). -/
structure DoubleEndedIter where
  gen : GenArgs
  rgen : GenArgs
  len : Int
deriving DecidableEq

/-- Method `rev()`: swap the two producers, keep the length. -/
def DoubleEndedIter.rev (it : DoubleEndedIter) : DoubleEndedIter :=
  ⟨it.rgen, it.gen, it.len⟩

/-- Direct iteration (`[...it]`): the inherited `ExactSizedIter`
iterator pulls from the forward producer and breaks once the yield
counter reaches `_len`, i.e. it yields at most `_len` elements.  The
range constructors below always store `len ≥ 0`, so the bound is
`len.toNat` pulls. -/
def DoubleEndedIter.toList (it : DoubleEndedIter) : List Int :=
  rangeGenTake it.gen it.len.toNat

/-- Helper `getRangeParams(arg1, arg2?)`: one argument means `(0, arg1)`, two
mean `(arg1, arg2)`. -/
def getRangeParams (arg1 : Int) (arg2 : Option Int) : Int × Int :=
  ((match arg2 with | some _ => arg1 | none => 0), arg2.getD arg1)

/-- Model of `Math.ceil(Math.abs a / Math.abs b)` for integers with `b ≠ 0` (the
JS operands here are exact integers, so the float division and ceiling
compute the integer ceiling of `|a| / |b|`). -/
def ceilAbsDiv (a b : Int) : Nat := (a.natAbs + b.natAbs - 1) / b.natAbs

/-- Model of `Math.floor(Math.abs a / Math.abs b)` for integers with `b ≠ 0`. -/
def floorAbsDiv (a b : Int) : Nat := a.natAbs / b.natAbs

/-- The last included value of `range`:
`end - ((end - start) % step || step)` — JS `%` is the truncated
remainder (`Int.tmod`), and `|| step` replaces a zero (or negative-zero)
remainder by `step` itself. -/
def rangeLast (start endv step : Int) : Int :=
  endv - (if Int.tmod (endv - start) step = 0 then step else Int.tmod (endv - start) step)

/-- Constructor `range(arg1, arg2?, step = 1)` from `src/iter/range.ts`: validates
`step ≠ 0` at construction (`throw` modeled by `Except.error`), returns
the canonical empty iterator on a direction mismatch, and otherwise
installs the forward producer `rangeGen(start, end, step)`, the reverse
producer `rangeGen(last, start - step, -step)` and length
`Math.ceil(|end - start| / |step|)`. -/
def range (arg1 : Int) (arg2 : Option Int) (step : Int) : Except String DoubleEndedIter :=
  let start := (getRangeParams arg1 arg2).1
  let endv := (getRangeParams arg1 arg2).2
  if step = 0 then .error ("Step cannot be 0")
  else if (step > 0 ∧ start ≥ endv) ∨ (step < 0 ∧ start ≤ endv) then
    .ok ⟨rangeGen 0 0 1, rangeGen 0 0 1, 0⟩
  else
    .ok ⟨rangeGen start endv step,
         rangeGen (rangeLast start endv step) (start - step) (-step),
         (ceilAbsDiv (endv - start) step : Nat)⟩

/-- The last included value of `irange`:
`step > 0 ? start + Math.floor((end - start) / step) * step
          : start + Math.ceil((end - start) / step) * step`. -/
def irangeLast (start endv step : Int) : Int :=
  if 0 < step then start + Int.fdiv (endv - start) step * step
  else start + -(Int.fdiv (-(endv - start)) step) * step

/-- Constructor `irange(arg1, arg2?, step = 1)` from `src/iter/range.ts`: validates
`step ≠ 0` at construction, then installs forward producer
`rangeGen(start, last + step, step)`, reverse producer
`rangeGen(last, start - step, -step)` and length
`Math.floor(|end - start| / |step|) + 1`. -/
def irange (arg1 : Int) (arg2 : Option Int) (step : Int) : Except String DoubleEndedIter :=
  let start := (getRangeParams arg1 arg2).1
  let endv := (getRangeParams arg1 arg2).2
  if step = 0 then .error ("Step cannot be 0")
  else
    .ok ⟨rangeGen start (irangeLast start endv step + step) step,
         rangeGen (irangeLast start endv step) (start - step) (-step),
         (floorAbsDiv (endv - start) step + 1 : Nat)⟩

/-- The second inclusive-range constructor present in the source (first
segment of the unnamed file, same logic as `src/range/range.ts`):
`const [start, end] = getRangeParams(arg1, arg2);
 return range(start, end + step, step);`. -/
def irangeDelegate (arg1 : Int) (arg2 : Option Int) (step : Int) : Except String DoubleEndedIter :=
  let start := (getRangeParams arg1 arg2).1
  let endv := (getRangeParams arg1 arg2).2
  range start (some (endv + step)) step

/-- The arithmetic progression `a, a + step, …, a + step * (n - 1)` — the
reference sequence the range producers are proved to yield. -/
def progList (a step : Int) : Nat → List Int
  | 0 => []
  | n + 1 => a :: progList (a + step) step n

end Ranges

/-! Helper lemmas about the reference progression and the range loop. -/

namespace Ranges

theorem progList_succ (a s : Int) (n : Nat) :
    progList a s (n + 1) = a :: progList (a + s) s n := rfl

theorem progList_concat (a s : Int) (n : Nat) :
    progList a s (n + 1) = progList a s n ++ [a + s * n] := by
  induction n generalizing a with
  | zero => simp [progList]
  | succ m ih =>
    rw [progList_succ, ih (a + s), progList_succ]
    have h1 : a + s + s * (m : Int) = a + s * ((m : Nat) + 1 : Nat) := by push_cast; ring
    simp [h1]

theorem progList_length (a s : Int) (n : Nat) : (progList a s n).length = n := by
  induction n generalizing a with
  | zero => rfl
  | succ m ih => simp [progList, ih]

theorem progList_take (a s : Int) (n m : Nat) :
    (progList a s n).take m = progList a s (min m n) := by
  induction n generalizing a m with
  | zero => simp [progList]
  | succ k ih =>
    cases m with
    | zero => simp [progList]
    | succ j =>
      have hmin : min (j + 1) (k + 1) = min j k + 1 := by omega
      rw [progList_succ, List.take_succ_cons, ih, hmin, progList_succ]

theorem progList_reverse_succ (a s : Int) (n : Nat) :
    (progList a s (n + 1)).reverse = progList (a + s * n) (-s) (n + 1) := by
  induction n generalizing a with
  | zero => simp [progList]
  | succ m ih =>
    rw [progList_concat a s (m + 1), List.reverse_append, ih]
    simp only [progList, List.reverse_cons, List.reverse_nil, List.nil_append,
      List.singleton_append]
    push_cast
    refine congrArg₂ List.cons (by ring) (congrArg₂ List.cons (by ring) ?_)
    have h1 : a + s * ((m : Int) + 1) + -s + -s = a + s * (m : Int) + -s := by ring
    rw [h1]

theorem progList_reverse (a s : Int) (L : Nat) :
    (progList a s L).reverse = progList (a + s * ((L : Int) - 1)) (-s) L := by
  cases L with
  | zero => simp [progList]
  | succ n =>
    have h := progList_reverse_succ a s n
    have h2 : ((n + 1 : Nat) : Int) - 1 = (n : Int) := by push_cast; ring
    rw [h, h2]

theorem rangeGenCond_up (s e i : Int) (h : s ≤ e) :
    rangeGenCond s e i = decide (i < e) := by
  simp [rangeGenCond, min_eq_left h]

theorem rangeGenCond_down (s e i : Int) (h : e < s) :
    rangeGenCond s e i = decide (e < i) := by
  have h1 : min s e = e := min_eq_right h.le
  have h2 : e ≠ s := h.ne
  simp [rangeGenCond, h1, h2]

theorem rangeGenLoop_up (s e st : Int) (hse : s ≤ e) :
    ∀ (fuel n : Nat) (i : Int), e ≤ i + st * n → (∀ k : Nat, k < n → i + st * k < e) →
      rangeGenLoop ⟨s, e, st⟩ fuel i = progList i st (min fuel n) := by
  intro fuel
  induction fuel with
  | zero => intro n i _ _; simp [rangeGenLoop, progList]
  | succ f ih =>
    intro n i h1 h2
    cases n with
    | zero =>
      have hi : ¬ (i < e) := by simpa using h1
      simp [rangeGenLoop, rangeGenCond_up _ _ _ hse, hi, progList]
    | succ m =>
      have hi : i < e := by simpa using h2 0 (Nat.succ_pos m)
      have h1a : e ≤ i + st + st * (m : Int) := by
        push_cast at h1; linarith [h1]
      have h2a : ∀ k : Nat, k < m → i + st + st * (k : Int) < e := by
        intro k hk
        have := h2 (k + 1) (by omega)
        push_cast at this; linarith [this]
      have hmin : min (f + 1) (m + 1) = min f m + 1 := by omega
      simp only [rangeGenLoop, rangeGenCond_up _ _ _ hse, decide_eq_true_eq, if_pos hi]
      rw [ih m (i + st) h1a h2a, hmin, progList_succ]

theorem rangeGenLoop_down (s e st : Int) (hse : e < s) :
    ∀ (fuel n : Nat) (i : Int), i + st * n ≤ e → (∀ k : Nat, k < n → e < i + st * k) →
      rangeGenLoop ⟨s, e, st⟩ fuel i = progList i st (min fuel n) := by
  intro fuel
  induction fuel with
  | zero => intro n i _ _; simp [rangeGenLoop, progList]
  | succ f ih =>
    intro n i h1 h2
    cases n with
    | zero =>
      have hi : ¬ (e < i) := by simpa using h1
      simp [rangeGenLoop, rangeGenCond_down _ _ _ hse, hi, progList]
    | succ m =>
      have hi : e < i := by simpa using h2 0 (Nat.succ_pos m)
      have h1a : i + st + st * (m : Int) ≤ e := by
        push_cast at h1; linarith [h1]
      have h2a : ∀ k : Nat, k < m → e < i + st + st * (k : Int) := by
        intro k hk
        have := h2 (k + 1) (by omega)
        push_cast at this; linarith [this]
      have hmin : min (f + 1) (m + 1) = min f m + 1 := by omega
      simp only [rangeGenLoop, rangeGenCond_down _ _ _ hse, decide_eq_true_eq, if_pos hi]
      rw [ih m (i + st) h1a h2a, hmin, progList_succ]

theorem producerYields_up (s e st : Int) (hse : s ≤ e) (n : Nat)
    (h1 : e ≤ s + st * n) (h2 : ∀ k : Nat, k < n → s + st * k < e) :
    producerYields ⟨s, e, st⟩ (progList s st n) := by
  intro fuel
  show rangeGenLoop ⟨s, e, st⟩ fuel s = _
  rw [rangeGenLoop_up s e st hse fuel n s h1 h2, progList_take]

theorem producerYields_down (s e st : Int) (hse : e < s) (n : Nat)
    (h1 : s + st * n ≤ e) (h2 : ∀ k : Nat, k < n → e < s + st * k) :
    producerYields ⟨s, e, st⟩ (progList s st n) := by
  intro fuel
  show rangeGenLoop ⟨s, e, st⟩ fuel s = _
  rw [rangeGenLoop_down s e st hse fuel n s h1 h2, progList_take]

theorem producerYields_trivial : producerYields (rangeGen 0 0 1) [] := by
  have h := producerYields_up 0 0 1 le_rfl 0 (by simp) (by omega)
  simpa [progList, rangeGen] using h

end Ranges

/-! Arithmetic characterization of the `last` value of the constructors and
declared length. -/

namespace Ranges

theorem tmod_natCast (m n : Nat) :
    Int.tmod (m : Int) (n : Int) = ((m % n : Nat) : Int) := rfl

theorem tmod_neg_natCast (m n : Nat) :
    Int.tmod (-(m : Int)) (-(n : Int)) = -((m % n : Nat) : Int) := by
  have h : Int.tmod (m : Int) (n : Int) = ((m % n : Nat) : Int) := rfl
  rw [Int.tmod_def] at h
  rw [Int.tmod_neg, Int.tmod_def, Int.neg_tdiv]
  linarith [h]

theorem ceil_shape (A B : Nat) (hA : 1 ≤ A) (hB : 1 ≤ B) :
    ∃ M : Nat, (A + B - 1) / B = M + 1 ∧ B * M < A ∧ A ≤ B * (M + 1) ∧
      ((A % B = 0 ∧ A = B * (M + 1)) ∨ (A % B ≠ 0 ∧ A = B * M + A % B)) := by
  have hdm : B * (A / B) + A % B = A := Nat.div_add_mod A B
  have hrB : A % B < B := Nat.mod_lt _ (by omega)
  by_cases hr : A % B = 0
  · have hq1 : 1 ≤ A / B := by
      rcases Nat.eq_zero_or_pos (A / B) with hq0 | hq1
      · rw [hq0, Nat.mul_zero] at hdm; omega
      · exact hq1
    obtain ⟨M, hM⟩ : ∃ M : Nat, A / B = M + 1 := ⟨A / B - 1, by omega⟩
    rw [hM] at hdm
    have hb : B * (M + 1) = B * M + B := by ring
    refine ⟨M, ?_, by omega, by omega, Or.inl ⟨hr, by omega⟩⟩
    have h1 : A + B - 1 = (B - 1) + B * (M + 1) := by omega
    rw [h1, Nat.add_mul_div_left _ _ (by omega : 0 < B),
      Nat.div_eq_of_lt (by omega : B - 1 < B)]
    omega
  · have hb : B * (A / B + 1) = B * (A / B) + B := by ring
    refine ⟨A / B, ?_, by omega, by omega, Or.inr ⟨hr, by omega⟩⟩
    have h1 : A + B - 1 = (A % B - 1) + B * (A / B + 1) := by omega
    rw [h1, Nat.add_mul_div_left _ _ (by omega : 0 < B),
      Nat.div_eq_of_lt (by omega : A % B - 1 < B)]
    omega

theorem range_shape_up (a e st : Int) (hst : 0 < st) (hae : a < e) :
    ∃ M : Nat, ceilAbsDiv (e - a) st = M + 1 ∧
      rangeLast a e st = a + st * (M : Int) ∧
      st * (M : Int) < e - a ∧ e - a ≤ st * ((M : Int) + 1) := by
  set A := (e - a).natAbs with hA
  set B := st.natAbs with hB
  have hAi : ((A : Int)) = e - a := Int.natAbs_of_nonneg (by omega)
  have hBi : ((B : Int)) = st := Int.natAbs_of_nonneg (by omega)
  have hA1 : 1 ≤ A := by omega
  have hB1 : 1 ≤ B := by omega
  obtain ⟨M, hL, hlt, hle, hcase⟩ := ceil_shape A B hA1 hB1
  have hlt' : st * (M : Int) < e - a := by
    have h2 : ((B : Int)) * (M : Int) < ((A : Int)) := by exact_mod_cast hlt
    rw [hAi, hBi] at h2; exact h2
  have hle' : e - a ≤ st * ((M : Int) + 1) := by
    have h2 : ((A : Int)) ≤ ((B : Int)) * ((M : Int) + 1) := by exact_mod_cast hle
    rw [hAi, hBi] at h2; exact h2
  refine ⟨M, hL, ?_, hlt', hle'⟩
  have hr : Int.tmod (e - a) st = ((A % B : Nat) : Int) := by
    rw [← hAi, ← hBi]; exact tmod_natCast A B
  rcases hcase with ⟨h0, hAeq⟩ | ⟨h0, hAeq⟩
  · rw [rangeLast, hr, h0, if_pos (by norm_num)]
    have h2 : ((A : Int)) = ((B : Int)) * ((M : Int) + 1) := by exact_mod_cast hAeq
    rw [hAi, hBi] at h2; linarith
  · rw [rangeLast, hr, if_neg (by exact_mod_cast h0)]
    have h2 : ((A : Int)) = ((B : Int)) * (M : Int) + ((A % B : Nat) : Int) := by
      exact_mod_cast hAeq
    rw [hAi, hBi] at h2; linarith

theorem range_shape_down (a e st : Int) (hst : st < 0) (hae : e < a) :
    ∃ M : Nat, ceilAbsDiv (e - a) st = M + 1 ∧
      rangeLast a e st = a + st * (M : Int) ∧
      e - a < st * (M : Int) ∧ st * ((M : Int) + 1) ≤ e - a := by
  set A := (e - a).natAbs with hA
  set B := st.natAbs with hB
  have hAi : ((A : Int)) = -(e - a) := Int.ofNat_natAbs_of_nonpos (by omega)
  have hBi : ((B : Int)) = -st := Int.ofNat_natAbs_of_nonpos (by omega)
  have hA1 : 1 ≤ A := by omega
  have hB1 : 1 ≤ B := by omega
  obtain ⟨M, hL, hlt, hle, hcase⟩ := ceil_shape A B hA1 hB1
  have hlt' : e - a < st * (M : Int) := by
    have h2 : ((B : Int)) * (M : Int) < ((A : Int)) := by exact_mod_cast hlt
    rw [hAi, hBi] at h2; linarith [h2]
  have hle' : st * ((M : Int) + 1) ≤ e - a := by
    have h2 : ((A : Int)) ≤ ((B : Int)) * ((M : Int) + 1) := by exact_mod_cast hle
    rw [hAi, hBi] at h2; linarith [h2]
  refine ⟨M, hL, ?_, hlt', hle'⟩
  have hr : Int.tmod (e - a) st = -((A % B : Nat) : Int) := by
    rw [show e - a = -((A : Int)) from by linarith [hAi],
      show st = -((B : Int)) from by linarith [hBi]]
    exact tmod_neg_natCast A B
  rcases hcase with ⟨h0, hAeq⟩ | ⟨h0, hAeq⟩
  · rw [rangeLast, hr, h0, if_pos (by norm_num)]
    have h2 : ((A : Int)) = ((B : Int)) * ((M : Int) + 1) := by exact_mod_cast hAeq
    rw [hAi, hBi] at h2; linarith [h2]
  · rw [rangeLast, hr, if_neg (by simpa using (by exact_mod_cast h0 : ¬ ((A % B : Nat) : Int) = 0))]
    have h2 : ((A : Int)) = ((B : Int)) * (M : Int) + ((A % B : Nat) : Int) := by
      exact_mod_cast hAeq
    rw [hAi, hBi] at h2; linarith [h2]

theorem irange_shape_up (a e st : Int) (hst : 0 < st) (hae : a ≤ e) :
    ∃ q : Nat, irangeLast a e st = a + st * (q : Int) ∧ floorAbsDiv (e - a) st = q := by
  set A := (e - a).natAbs with hA
  set B := st.natAbs with hB
  have hAi : ((A : Int)) = e - a := Int.natAbs_of_nonneg (by omega)
  have hBi : ((B : Int)) = st := Int.natAbs_of_nonneg (by omega)
  refine ⟨A / B, ?_, rfl⟩
  rw [irangeLast, if_pos hst]
  have h1 : Int.fdiv (e - a) st = ((A / B : Nat) : Int) := by
    rw [Int.fdiv_eq_ediv _ (le_of_lt hst), ← hAi, ← hBi]
    exact (Int.ofNat_ediv A B).symm
  rw [h1]; ring

theorem irange_shape_down (a e st : Int) (hst : st < 0) (hae : e ≤ a)
    (hdvd : st ∣ (e - a)) :
    irangeLast a e st = e ∧
      ∃ T : Nat, e = a + st * (T : Int) ∧ floorAbsDiv (e - a) st = T := by
  obtain ⟨t, ht⟩ := hdvd
  have ht0 : 0 ≤ t := by
    by_contra h
    push_neg at h
    have h2 : 0 < st * t := mul_pos_of_neg_of_neg hst h
    have h3 : e - a ≤ 0 := by omega
    rw [← ht] at h2; omega
  constructor
  · rw [irangeLast, if_neg (by omega : ¬ 0 < st)]
    have h2 : -(e - a) = st * (-t) := by rw [ht]; ring
    rw [h2, Int.mul_fdiv_cancel_left _ (by omega : st ≠ 0)]
    have h3 : st * t = e - a := ht.symm
    nlinarith [h3]
  · refine ⟨t.toNat, ?_, ?_⟩
    · rw [Int.toNat_of_nonneg ht0]
      linarith [ht]
    · rw [floorAbsDiv, ht, Int.natAbs_mul]
      have h4 : t.natAbs = t.toNat := by omega
      rw [h4]
      exact Nat.mul_div_cancel_left _ (Int.natAbs_pos.mpr (by omega))

end Ranges

/-! Reduction of the constructors to explicit iterators, and the central
characterization: on its good domain each constructor yields an arithmetic
progression forward, its mirror image backward, and stores the true count. -/

namespace Ranges

theorem range_eq_empty (a e st : Int) (hst : st ≠ 0)
    (hmm : (0 < st ∧ e ≤ a) ∨ (st < 0 ∧ a ≤ e)) :
    range a (some e) st = .ok ⟨rangeGen 0 0 1, rangeGen 0 0 1, 0⟩ := by
  have hc : (st > 0 ∧ a ≥ e) ∨ (st < 0 ∧ a ≤ e) := by
    rcases hmm with ⟨h1, h2⟩ | ⟨h1, h2⟩
    · exact Or.inl ⟨h1, h2⟩
    · exact Or.inr ⟨h1, h2⟩
  simp only [range, getRangeParams, Option.getD_some]
  rw [if_neg hst, if_pos hc]

theorem range_eq_normal (a e st : Int) (hst : st ≠ 0)
    (h : ¬ ((0 < st ∧ e ≤ a) ∨ (st < 0 ∧ a ≤ e))) :
    range a (some e) st = .ok ⟨rangeGen a e st,
      rangeGen (rangeLast a e st) (a - st) (-st),
      ((ceilAbsDiv (e - a) st : Nat) : Int)⟩ := by
  have hc : ¬ ((st > 0 ∧ a ≥ e) ∨ (st < 0 ∧ a ≤ e)) := by
    intro hcc
    apply h
    rcases hcc with ⟨h1, h2⟩ | ⟨h1, h2⟩
    · exact Or.inl ⟨h1, h2⟩
    · exact Or.inr ⟨h1, h2⟩
  simp only [range, getRangeParams, Option.getD_some]
  rw [if_neg hst, if_neg hc]

theorem irange_eq (a e st : Int) (hst : st ≠ 0) :
    irange a (some e) st = .ok ⟨rangeGen a (irangeLast a e st + st) st,
      rangeGen (irangeLast a e st) (a - st) (-st),
      ((floorAbsDiv (e - a) st + 1 : Nat) : Int)⟩ := by
  simp only [irange, getRangeParams, Option.getD_some]
  rw [if_neg hst]

theorem mul_cast_mono_pos {st : Int} (hst : 0 < st) {k M : Nat} (hk : k ≤ M) :
    st * (k : Int) ≤ st * (M : Int) :=
  mul_le_mul_of_nonneg_left (by exact_mod_cast hk) (le_of_lt hst)

theorem mul_cast_mono_neg {st : Int} (hst : st < 0) {k M : Nat} (hk : k ≤ M) :
    st * (M : Int) ≤ st * (k : Int) :=
  mul_le_mul_of_nonpos_left (by exact_mod_cast hk) (le_of_lt hst)

theorem de_char (a e st : Int) (it : DoubleEndedIter)
    (h : (st ≠ 0 ∧ range a (some e) st = .ok it) ∨
         (((0 < st ∧ a ≤ e) ∨ (st < 0 ∧ e ≤ a ∧ st ∣ (e - a))) ∧
           irange a (some e) st = .ok it)) :
    ∃ (L : Nat) (c : Int),
      it.len = (L : Int) ∧
      producerYields it.gen (progList c st L) ∧
      producerYields it.rgen (progList (c + st * ((L : Int) - 1)) (-st) L) := by
  rcases h with ⟨hst, hr⟩ | ⟨hdom, hr⟩
  · -- the exclusive constructor, any nonzero step
    rcases lt_or_gt_of_ne hst with hneg | hpos
    · rcases le_or_lt a e with hae | hea
      · -- direction mismatch: canonical empty iterator
        rw [range_eq_empty a e st hst (Or.inr ⟨hneg, hae⟩)] at hr
        obtain rfl := Except.ok.inj hr
        exact ⟨0, 0, rfl, producerYields_trivial, producerYields_trivial⟩
      · -- descending range
        obtain ⟨M, hL, hlast, hlt, hle⟩ := range_shape_down a e st hneg hea
        rw [range_eq_normal a e st hst (by omega)] at hr
        obtain rfl := Except.ok.inj hr
        refine ⟨M + 1, a, ?_, ?_, ?_⟩
        · show ((ceilAbsDiv (e - a) st : Nat) : Int) = _
          rw [hL]
        · show producerYields ⟨a, e, st⟩ _
          apply producerYields_down a e st hea (M + 1)
          · push_cast; linarith [hle]
          · intro k hk
            have h2 : st * (M : Int) ≤ st * (k : Int) := mul_cast_mono_neg hneg (by omega)
            linarith [hlt, h2]
        · show producerYields ⟨rangeLast a e st, a - st, -st⟩ _
          have hc : a + st * (((M + 1 : Nat) : Int) - 1) = rangeLast a e st := by
            rw [hlast]; push_cast; ring_nf
          rw [hc]
          apply producerYields_up (rangeLast a e st) (a - st) (-st) ?hse (M + 1) ?h1 ?h2
          case hse =>
            have h2 : st * (M : Int) ≤ 0 :=
              mul_nonpos_of_nonpos_of_nonneg (le_of_lt hneg) (Nat.cast_nonneg M)
            rw [hlast]; linarith [h2]
          case h1 => rw [hlast]; push_cast; ring_nf; linarith
          case h2 =>
            intro k hk
            have h2 : st * (M : Int) ≤ st * (k : Int) := mul_cast_mono_neg hneg (by omega)
            rw [hlast]; linarith [h2]
    · rcases le_or_lt e a with hea | hae
      · -- direction mismatch: canonical empty iterator
        rw [range_eq_empty a e st hst (Or.inl ⟨hpos, hea⟩)] at hr
        obtain rfl := Except.ok.inj hr
        exact ⟨0, 0, rfl, producerYields_trivial, producerYields_trivial⟩
      · -- ascending range
        obtain ⟨M, hL, hlast, hlt, hle⟩ := range_shape_up a e st hpos hae
        rw [range_eq_normal a e st hst (by omega)] at hr
        obtain rfl := Except.ok.inj hr
        refine ⟨M + 1, a, ?_, ?_, ?_⟩
        · show ((ceilAbsDiv (e - a) st : Nat) : Int) = _
          rw [hL]
        · show producerYields ⟨a, e, st⟩ _
          apply producerYields_up a e st (le_of_lt hae) (M + 1)
          · push_cast; linarith [hle]
          · intro k hk
            have h2 : st * (k : Int) ≤ st * (M : Int) := mul_cast_mono_pos hpos (by omega)
            linarith [hlt, h2]
        · show producerYields ⟨rangeLast a e st, a - st, -st⟩ _
          have hc : a + st * (((M + 1 : Nat) : Int) - 1) = rangeLast a e st := by
            rw [hlast]; push_cast; ring_nf
          rw [hc]
          apply producerYields_down (rangeLast a e st) (a - st) (-st) ?hse (M + 1) ?h1 ?h2
          case hse =>
            have h2 : 0 ≤ st * (M : Int) :=
              mul_nonneg (le_of_lt hpos) (Nat.cast_nonneg M)
            rw [hlast]; linarith [h2]
          case h1 => rw [hlast]; push_cast; ring_nf; linarith
          case h2 =>
            intro k hk
            have h2 : st * (k : Int) ≤ st * (M : Int) := mul_cast_mono_pos hpos (by omega)
            rw [hlast]; linarith [h2]
  · -- the inclusive constructor on its good domain
    rcases hdom with ⟨hpos, hae⟩ | ⟨hneg, hea, hdvd⟩
    · -- ascending: last = start + floor((end-start)/step)*step
      obtain ⟨q, hlast, hflo⟩ := irange_shape_up a e st hpos hae
      rw [irange_eq a e st (by omega)] at hr
      obtain rfl := Except.ok.inj hr
      refine ⟨q + 1, a, ?_, ?_, ?_⟩
      · show ((floorAbsDiv (e - a) st + 1 : Nat) : Int) = _
        rw [hflo]
      · show producerYields ⟨a, irangeLast a e st + st, st⟩ _
        apply producerYields_up a (irangeLast a e st + st) st ?hse (q + 1) ?h1 ?h2
        case hse =>
          have h2 : 0 ≤ st * (q : Int) :=
            mul_nonneg (le_of_lt hpos) (Nat.cast_nonneg q)
          rw [hlast]; linarith [h2]
        case h1 => rw [hlast]; push_cast; ring_nf; linarith
        case h2 =>
          intro k hk
          have h2 : st * (k : Int) ≤ st * (q : Int) := mul_cast_mono_pos hpos (by omega)
          rw [hlast]; linarith [h2]
      · show producerYields ⟨irangeLast a e st, a - st, -st⟩ _
        have hc : a + st * (((q + 1 : Nat) : Int) - 1) = irangeLast a e st := by
          rw [hlast]; push_cast; ring_nf
        rw [hc]
        apply producerYields_down (irangeLast a e st) (a - st) (-st) ?hse (q + 1) ?h1 ?h2
        case hse =>
          have h2 : 0 ≤ st * (q : Int) :=
            mul_nonneg (le_of_lt hpos) (Nat.cast_nonneg q)
          rw [hlast]; linarith [h2]
        case h1 => rw [hlast]; push_cast; ring_nf; linarith
        case h2 =>
          intro k hk
          have h2 : st * (k : Int) ≤ st * (q : Int) := mul_cast_mono_pos hpos (by omega)
          rw [hlast]; linarith [h2]
    · -- descending, step dividing the span: last = end exactly
      obtain ⟨hlast, T, hT, hflo⟩ := irange_shape_down a e st hneg hea hdvd
      rw [irange_eq a e st (by omega)] at hr
      obtain rfl := Except.ok.inj hr
      refine ⟨T + 1, a, ?_, ?_, ?_⟩
      · show ((floorAbsDiv (e - a) st + 1 : Nat) : Int) = _
        rw [hflo]
      · show producerYields ⟨a, irangeLast a e st + st, st⟩ _
        apply producerYields_down a (irangeLast a e st + st) st ?hse (T + 1) ?h1 ?h2
        case hse =>
          rw [hlast]; linarith
        case h1 => rw [hlast, hT]; push_cast; ring_nf; linarith
        case h2 =>
          intro k hk
          have h2 : st * (T : Int) ≤ st * (k : Int) := mul_cast_mono_neg hneg (by omega)
          rw [hlast, hT]; linarith [h2]
      · show producerYields ⟨irangeLast a e st, a - st, -st⟩ _
        have hc : a + st * (((T + 1 : Nat) : Int) - 1) = irangeLast a e st := by
          rw [hlast, hT]; push_cast; ring_nf
        rw [hc]
        apply producerYields_up (irangeLast a e st) (a - st) (-st) ?hse (T + 1) ?h1 ?h2
        case hse =>
          rw [hlast]; linarith
        case h1 => rw [hlast, hT]; push_cast; ring_nf; linarith
        case h2 =>
          intro k hk
          have h2 : st * (T : Int) ≤ st * (k : Int) := mul_cast_mono_neg hneg (by omega)
          rw [hlast, hT]; linarith [h2]

theorem toList_eq (it : DoubleEndedIter) (L : Nat) (l : List Int)
    (hlen : it.len = (L : Int)) (hy : producerYields it.gen l) (hl : l.length = L) :
    it.toList = l := by
  rw [DoubleEndedIter.toList, hlen, Int.toNat_natCast, hy L, ← hl, List.take_length]

end Ranges

/-! Helper lemmas for the combinator layer. -/

namespace Producers

theorem takeAux_eq_take {α : Type} (n : Int) :
    ∀ (g : List α) (i : Int), 0 ≤ i → i ≤ n → takeAux n i g = g.take (n - i).toNat := by
  intro g
  induction g with
  | nil => intro i _ _; simp [takeAux]
  | cons a rest ih =>
    intro i h0 hin
    by_cases hi : i = n
    · simp [takeAux, hi]
    · rw [takeAux.eq_def]
      simp only [if_neg hi]
      rw [ih (i + 1) (by omega) (by omega)]
      have h2 : (n - i).toNat = (n - (i + 1)).toNat + 1 := by omega
      rw [h2, List.take_succ_cons]

theorem take_eq_take {α : Type} (n : Int) (g : List α) (h : 0 ≤ n) :
    Producers.take n g = g.take n.toNat := by
  rw [Producers.take, takeAux_eq_take n g 0 le_rfl h]
  norm_num

theorem cycleTake_length {α : Type} (g : List α) (n : Nat) (hg : g ≠ []) :
    (cycleTake g n).length = n := by
  rw [cycleTake, List.length_take]
  have h1 : (List.replicate n g).flatten.length = n * g.length := by
    simp [List.length_flatten, List.map_replicate, List.sum_replicate, smul_eq_mul]
  have h2 : 1 ≤ g.length := by
    cases g with
    | nil => exact absurd rfl hg
    | cons b l => simp
  rw [h1]
  have h3 : n ≤ n * g.length := Nat.le_mul_of_pos_right n (by omega)
  omega

theorem cycleTake_of_le {α : Type} (g : List α) (n : Nat) (h : n ≤ g.length) :
    cycleTake g n = g.take n := by
  cases n with
  | zero => simp [cycleTake]
  | succ m =>
    rw [cycleTake, List.replicate_succ, List.flatten_cons,
      List.take_append_of_le_length h]

end Producers

/-! Helper lemmas used by the comparison of the two inclusive-range
constructors. -/

namespace Ranges

theorem irangeLast_eq_of_dvd (a e st : Int) (hst : st ≠ 0) (hdvd : st ∣ (e - a)) :
    irangeLast a e st = e := by
  obtain ⟨t, ht⟩ := hdvd
  rcases lt_or_gt_of_ne hst with hneg | hpos
  · rw [irangeLast, if_neg (by omega)]
    have h2 : -(e - a) = st * (-t) := by rw [ht]; ring
    rw [h2, Int.mul_fdiv_cancel_left _ hst]
    linarith [ht]
  · rw [irangeLast, if_pos hpos, ht, Int.mul_fdiv_cancel_left _ hst]
    linarith [ht]

theorem rangeLast_shift_of_dvd (a e st : Int) (hdvd : st ∣ (e - a)) :
    rangeLast a (e + st) st = e := by
  obtain ⟨t, ht⟩ := hdvd
  have h2 : e + st - a = st * (t + 1) := by
    rw [show e + st - a = (e - a) + st from by ring, ht]; ring
  rw [rangeLast, h2, Int.mul_tmod_right, if_pos rfl]
  ring

theorem lens_shift_of_dvd (a e st : Int) (hst : st ≠ 0)
    (hdir : (0 < st ∧ a ≤ e) ∨ (st < 0 ∧ e ≤ a)) (hdvd : st ∣ (e - a)) :
    floorAbsDiv (e - a) st + 1 = ceilAbsDiv (e + st - a) st := by
  obtain ⟨t, ht⟩ := hdvd
  have ht0 : 0 ≤ t := by
    rcases hdir with ⟨h1, h2⟩ | ⟨h1, h2⟩
    · by_contra hcon
      push_neg at hcon
      have h4 : 0 ≤ st * t := ht ▸ (by omega : (0 : Int) ≤ e - a)
      have h5 : st * t < 0 := mul_neg_of_pos_of_neg h1 hcon
      omega
    · by_contra hcon
      push_neg at hcon
      have h4 : st * t ≤ 0 := ht ▸ (by omega : e - a ≤ (0 : Int))
      have h5 : 0 < st * t := mul_pos_of_neg_of_neg h1 hcon
      omega
  have hB1 : 1 ≤ st.natAbs := by
    have := Int.natAbs_ne_zero.mpr hst
    omega
  have hA : (e - a).natAbs = st.natAbs * t.toNat := by
    rw [ht, Int.natAbs_mul]
    congr 1
    omega
  have hA2 : (e + st - a).natAbs = st.natAbs * (t.toNat + 1) := by
    rw [show e + st - a = st * (t + 1) from by
      rw [show e + st - a = (e - a) + st from by ring, ht]; ring, Int.natAbs_mul]
    congr 1
    omega
  rw [floorAbsDiv, ceilAbsDiv, hA, hA2,
    Nat.mul_div_cancel_left t.toNat (by omega : 0 < st.natAbs)]
  have h1 : st.natAbs * (t.toNat + 1) + st.natAbs - 1 =
      (st.natAbs - 1) + st.natAbs * (t.toNat + 1) := by omega
  rw [h1, Nat.add_mul_div_left _ _ (by omega : 0 < st.natAbs),
    Nat.div_eq_of_lt (by omega : st.natAbs - 1 < st.natAbs)]
  omega

end Ranges

/-! The claims. -/

/-- C1 (corrected).  As stated — for every `start`, `end` and nonzero
`step`, both for `range` and for `irange`, listing the reversed iterator
gives the reversal of listing the iterator — the claim fails for `irange`
(see `c1_irange_rev_counterexample`).  Amended: it holds for `range` with
any nonzero step, and for `irange` whenever the step direction matches the
bounds and, for negative steps, `step` divides `end - start` exactly. -/
theorem c1_rev_yields_reverse (a e st : Int) (it : Ranges.DoubleEndedIter)
    (h : (st ≠ 0 ∧ Ranges.range a (some e) st = .ok it) ∨
         (((0 < st ∧ a ≤ e) ∨ (st < 0 ∧ e ≤ a ∧ st ∣ (e - a))) ∧
           Ranges.irange a (some e) st = .ok it)) :
    it.rev.toList = it.toList.reverse := by
  obtain ⟨L, c, hlen, hf, hrv⟩ := Ranges.de_char a e st it h
  have h1 : it.toList = Ranges.progList c st L :=
    Ranges.toList_eq it L _ hlen hf (Ranges.progList_length c st L)
  have h2 : it.rev.toList = Ranges.progList (c + st * ((L : Int) - 1)) (-st) L :=
    Ranges.toList_eq it.rev L _ hlen hrv (Ranges.progList_length _ _ L)
  rw [h1, h2, Ranges.progList_reverse]

/-- Witness for C1: `range(0, 5, 1)`. -/
theorem c1_rev_yields_reverse_witness :
    (Ranges.DoubleEndedIter.rev ⟨⟨0, 5, 1⟩, ⟨4, -1, -1⟩, 5⟩).toList =
      (Ranges.DoubleEndedIter.toList ⟨⟨0, 5, 1⟩, ⟨4, -1, -1⟩, 5⟩).reverse :=
  c1_rev_yields_reverse 0 5 1 ⟨⟨0, 5, 1⟩, ⟨4, -1, -1⟩, 5⟩ (Or.inl ⟨by norm_num, rfl⟩)

/-- Evaluation of `irange(3, 0, -2)`: step `-2` does not divide the span
`-3`, so the computed last value `-1` overshoots the bound `0`. -/
theorem irange_3_0_neg2_eq :
    Ranges.irange 3 (some 0) (-2) = .ok ⟨⟨3, -3, -2⟩, ⟨-1, 5, 2⟩, 2⟩ := rfl

/-- Counterexample for C1 as stated: for `irange(3, 0, -2)` the listed
reverse side is `[-1, 1]` while the reversal of the listed forward side
`[3, 1]` is `[1, 3]`. -/
theorem c1_irange_rev_counterexample :
    ∃ it : Ranges.DoubleEndedIter, Ranges.irange 3 (some 0) (-2) = .ok it ∧
      it.rev.toList ≠ it.toList.reverse :=
  ⟨⟨⟨3, -3, -2⟩, ⟨-1, 5, 2⟩, 2⟩, irange_3_0_neg2_eq, by decide⟩

/-- C2 (corrected).  As stated — the declared length always equals the
true number of elements of the forward producer, for both constructors —
the claim fails for `irange` (see `c2_irange_len_counterexample`).
Amended: for `range` with any nonzero step (direction mismatches
included), and for `irange` on the same good domain as C1, the forward
producer terminates yielding exactly the listed elements and the declared
length equals that count. -/
theorem c2_declared_len_eq_true_count (a e st : Int) (it : Ranges.DoubleEndedIter)
    (h : (st ≠ 0 ∧ Ranges.range a (some e) st = .ok it) ∨
         (((0 < st ∧ a ≤ e) ∨ (st < 0 ∧ e ≤ a ∧ st ∣ (e - a))) ∧
           Ranges.irange a (some e) st = .ok it)) :
    Ranges.producerYields it.gen it.toList ∧ (it.toList.length : Int) = it.len := by
  obtain ⟨L, c, hlen, hf, _⟩ := Ranges.de_char a e st it h
  have h1 : it.toList = Ranges.progList c st L :=
    Ranges.toList_eq it L _ hlen hf (Ranges.progList_length c st L)
  refine ⟨?_, ?_⟩
  · rw [h1]; exact hf
  · rw [h1, Ranges.progList_length, hlen]

/-- Witness for C2: `range(0, 3, 1)`. -/
theorem c2_declared_len_eq_true_count_witness :
    Ranges.producerYields (⟨⟨0, 3, 1⟩, ⟨2, -1, -1⟩, 3⟩ : Ranges.DoubleEndedIter).gen
        (Ranges.DoubleEndedIter.toList ⟨⟨0, 3, 1⟩, ⟨2, -1, -1⟩, 3⟩) ∧
      ((Ranges.DoubleEndedIter.toList ⟨⟨0, 3, 1⟩, ⟨2, -1, -1⟩, 3⟩).length : Int) =
        (⟨⟨0, 3, 1⟩, ⟨2, -1, -1⟩, 3⟩ : Ranges.DoubleEndedIter).len :=
  c2_declared_len_eq_true_count 0 3 1 _ (Or.inl ⟨by norm_num, rfl⟩)

/-- Counterexample for C2 as stated: `irange(3, 0, -2)` declares length
`2`, but its forward producer `rangeGen(3, -3, -2)` yields three elements
`[3, 1, -1]`, so no two-element list describes what it yields. -/
theorem c2_irange_len_counterexample :
    Ranges.irange 3 (some 0) (-2) = .ok ⟨⟨3, -3, -2⟩, ⟨-1, 5, 2⟩, 2⟩ ∧
      ¬ ∃ l : List Int,
          (l.length : Int) = (⟨⟨3, -3, -2⟩, ⟨-1, 5, 2⟩, 2⟩ : Ranges.DoubleEndedIter).len ∧
          Ranges.producerYields (⟨⟨3, -3, -2⟩, ⟨-1, 5, 2⟩, 2⟩ : Ranges.DoubleEndedIter).gen l :=
  ⟨irange_3_0_neg2_eq, by
    rintro ⟨l, hlen, hy⟩
    have h3 := hy 3
    have h4 : Ranges.rangeGenTake ⟨3, -3, -2⟩ 3 = [3, 1, -1] := rfl
    rw [h4] at h3
    have hlen2 : (l.length : Int) = 2 := hlen
    have hl2 : l.length = 2 := by exact_mod_cast hlen2
    have h5 := congrArg List.length h3
    rw [List.length_take, hl2] at h5
    simp at h5⟩

/-- C3 (code bug in the source).  The claim states the standard
`skipWhile` contract: drop only the maximal leading run satisfying `fn`,
then yield everything unconditionally.  The source instead drops every
element satisfying `fn` (there is no "done skipping" flag), behaving as
`filter (not fn)`: on the producer `[1, 2, 1]` with `fn x := x == 1` the
code yields `[2]`, while the contract (the Lean function `List.dropWhile`) yields
`[2, 1]`. -/
theorem c3_skipWhile_drops_every_match :
    Producers.skipWhile (fun x : Int => x == 1) [1, 2, 1] = [2] ∧
      List.dropWhile (fun x : Int => x == 1) [1, 2, 1] = [2, 1] :=
  ⟨rfl, rfl⟩

/-- C4 (corrected).  As stated — `skip(n)` sets the declared length to
`max(0, previous - n)`, never negative — the claim fails: the source
stores the plain difference `previous - n`, which is negative as soon as
`n` exceeds the previous declared length (see
`c4_skip_len_negative_counterexample`).  Amended: on both the exact-sized
and double-ended tiers, `skip(n)` returns an iterator whose declared
length is exactly `previous - n`. -/
theorem c4_skip_len_is_plain_sub {α : Type} (it : Producers.ExactSizedIter α)
    (dit : Producers.DoubleEndedIter α) (n : Int) :
    (it.skip n).len = it.len - n ∧ (dit.skip n).len = dit.len - n :=
  ⟨rfl, rfl⟩

/-- Counterexample for C4 as stated: skipping `5` elements of a length-`1`
iterator declares length `-4`, not `max(0, 1 - 5) = 0`. -/
theorem c4_skip_len_negative_counterexample :
    (Producers.ExactSizedIter.skip ⟨([7] : List Int), 1⟩ 5).len < 0 ∧
      (Producers.DoubleEndedIter.skip ⟨([7] : List Int), [7], 1⟩ 5).len < 0 :=
  ⟨by decide, by decide⟩

/-- C5 (corrected).  As stated — for a finite filter-free source,
`take(n).len()` equals `min(n, true count of the source)` — the claim
fails: the source stores `n` itself as the declared length, even when `n`
exceeds the true count (see `c5_take_len_counterexample`).  Amended: both
`Iter.take` and `ExactSizedIter.take` declare length exactly `n` (an
upper bound), while the number of elements actually yielded is
`min(n, true count)`. -/
theorem c5_take_len_is_n {α : Type} (g : List α) (n : Int) :
    (Producers.Iter.take ⟨g⟩ n).len = n ∧
      (Producers.ExactSizedIter.take ⟨g, (g.length : Int)⟩ n).len = n ∧
      (0 ≤ n → ((Producers.Iter.take ⟨g⟩ n).gen).length = min n.toNat g.length) := by
  refine ⟨rfl, rfl, fun h => ?_⟩
  show (Producers.take n g).length = _
  rw [Producers.take_eq_take n g h, List.length_take]

/-- Witness for C5 (amended) at `iter([7, 8]).take(1)`. -/
theorem c5_take_len_is_n_witness :
    (Producers.Iter.take ⟨([7, 8] : List Int)⟩ 1).len = 1 ∧
      ((Producers.Iter.take ⟨([7, 8] : List Int)⟩ 1).gen).length =
        min (1 : Int).toNat ([7, 8] : List Int).length :=
  ⟨(c5_take_len_is_n [7, 8] 1).1, (c5_take_len_is_n [7, 8] 1).2.2 (by norm_num)⟩

/-- Counterexample for C5 as stated: `iter([7]).take(3)` declares length
`3` although the source has only one element, so `min(3, 1) = 1 ≠ 3`. -/
theorem c5_take_len_counterexample :
    (Producers.Iter.take ⟨([7] : List Int)⟩ 3).len ≠
      min 3 (([7] : List Int).length : Int) := by decide

/-- C6 (confirmed).  Calling the high-level constructors `range` or
`irange` with `step = 0` (any argument shape: one, two or three
arguments) fails with the invalid-argument error at construction time —
in this embedding the constructors return the error value before any
producer is recorded, never a producer that loops or fails later. -/
theorem c6_zero_step_errors_at_construction (arg1 : Int) (arg2 : Option Int) :
    Ranges.range arg1 arg2 0 = .error ("Step cannot be 0") ∧
      Ranges.irange arg1 arg2 0 = .error ("Step cannot be 0") := by
  constructor
  · simp [Ranges.range]
  · simp [Ranges.irange]

/-- C7 (confirmed).  On a direction mismatch (`step > 0` with
`start ≥ end`, or `step < 0` with `start ≤ end`) `range` returns the
canonical empty double-ended iterator: both producers are
`rangeGen(0, 0)` which yields nothing at any fuel, listing it forward or
reversed gives `[]`, and the declared length is `0`. -/
theorem c7_mismatch_returns_canonical_empty (a e st : Int) (hst : st ≠ 0)
    (hmm : (0 < st ∧ e ≤ a) ∨ (st < 0 ∧ a ≤ e)) :
    Ranges.range a (some e) st = .ok ⟨Ranges.rangeGen 0 0 1, Ranges.rangeGen 0 0 1, 0⟩ ∧
      Ranges.producerYields (Ranges.rangeGen 0 0 1) [] ∧
      Ranges.DoubleEndedIter.toList ⟨Ranges.rangeGen 0 0 1, Ranges.rangeGen 0 0 1, 0⟩ = [] ∧
      (Ranges.DoubleEndedIter.rev ⟨Ranges.rangeGen 0 0 1, Ranges.rangeGen 0 0 1, 0⟩).toList = [] ∧
      (⟨Ranges.rangeGen 0 0 1, Ranges.rangeGen 0 0 1, (0 : Int)⟩ : Ranges.DoubleEndedIter).len = 0 :=
  ⟨Ranges.range_eq_empty a e st hst hmm, Ranges.producerYields_trivial, rfl, rfl, rfl⟩

/-- Witness for C7 at `range(5, 2, 1)`. -/
theorem c7_mismatch_returns_canonical_empty_witness :
    Ranges.range 5 (some 2) 1 = .ok ⟨Ranges.rangeGen 0 0 1, Ranges.rangeGen 0 0 1, 0⟩ ∧
      Ranges.producerYields (Ranges.rangeGen 0 0 1) [] ∧
      Ranges.DoubleEndedIter.toList ⟨Ranges.rangeGen 0 0 1, Ranges.rangeGen 0 0 1, 0⟩ = [] ∧
      (Ranges.DoubleEndedIter.rev ⟨Ranges.rangeGen 0 0 1, Ranges.rangeGen 0 0 1, 0⟩).toList = [] ∧
      (⟨Ranges.rangeGen 0 0 1, Ranges.rangeGen 0 0 1, (0 : Int)⟩ : Ranges.DoubleEndedIter).len = 0 :=
  c7_mismatch_returns_canonical_empty 5 2 1 (by norm_num) (Or.inl (by norm_num))

/-- C8 (confirmed).  `fold(init, fn)` over an empty source returns `init`
unchanged, and `reduce(fn)` over an empty source returns the distinguished
no-value result (`undefined`, here `none`) rather than raising. -/
theorem c8_fold_reduce_on_empty {α β : Type} (init : β) (fn : β → α → β)
    (fn2 : α → α → α) :
    Producers.fold init fn ([] : List α) = init ∧
      Producers.reduce fn2 ([] : List α) = none :=
  ⟨rfl, rfl⟩

/-- C9 (corrected).  As stated — the direct `irange` and the delegating
`irange(start, end + step, step)` are extensionally equal for every
nonzero step — the claim fails: when `step` does not divide
`end - start` the delegate overshoots by one element (see
`c9_irange_delegate_counterexample`), and on direction mismatches the two
disagree as well.  Amended: whenever the step direction matches the
bounds and `step` divides `end - start` exactly, the two constructors
return identical iterators (same producers, same declared length). -/
theorem c9_irange_delegate_agree (a e st : Int)
    (hdir : (0 < st ∧ a ≤ e) ∨ (st < 0 ∧ e ≤ a)) (hdvd : st ∣ (e - a)) :
    Ranges.irange a (some e) st = Ranges.irangeDelegate a (some e) st := by
  have hst : st ≠ 0 := by rcases hdir with ⟨h1, _⟩ | ⟨h1, _⟩ <;> omega
  have hcond : ¬ ((0 < st ∧ e + st ≤ a) ∨ (st < 0 ∧ a ≤ e + st)) := by
    rintro (⟨hx, hy⟩ | ⟨hx, hy⟩) <;> rcases hdir with ⟨h1, h2⟩ | ⟨h1, h2⟩ <;> omega
  have hdel : Ranges.irangeDelegate a (some e) st = Ranges.range a (some (e + st)) st := rfl
  rw [Ranges.irange_eq a e st hst, hdel, Ranges.range_eq_normal a (e + st) st hst hcond,
    Ranges.irangeLast_eq_of_dvd a e st hst hdvd,
    Ranges.rangeLast_shift_of_dvd a e st hdvd,
    Ranges.lens_shift_of_dvd a e st hst hdir hdvd]

/-- Witness for C9 (amended) at `irange(0, 4, 2)`. -/
theorem c9_irange_delegate_agree_witness :
    Ranges.irange 0 (some 4) 2 = Ranges.irangeDelegate 0 (some 4) 2 :=
  c9_irange_delegate_agree 0 4 2 (Or.inl ⟨by norm_num, by norm_num⟩) ⟨2, by norm_num⟩

/-- Counterexample for C9 as stated: at `(0, 5, 2)` the direct
constructor lists `[0, 2, 4]` with declared length `3`, the delegate
lists `[0, 2, 4, 6]` with declared length `4`. -/
theorem c9_irange_delegate_counterexample :
    (Ranges.irange 0 (some 5) 2).map Ranges.DoubleEndedIter.toList = .ok [0, 2, 4] ∧
      (Ranges.irangeDelegate 0 (some 5) 2).map Ranges.DoubleEndedIter.toList =
        .ok [0, 2, 4, 6] ∧
      (Ranges.irange 0 (some 5) 2).map Ranges.DoubleEndedIter.len = .ok 3 ∧
      (Ranges.irangeDelegate 0 (some 5) 2).map Ranges.DoubleEndedIter.len = .ok 4 :=
  ⟨rfl, rfl, rfl, rfl⟩

/-- C10 (confirmed).  For any exact-sized (hence also double-ended, the
subclass inherits the iterator) iterator with non-negative declared
length: direct iteration yields at most `len` elements; iterating the
result of `cycle()` on a nonempty producer yields exactly `len` elements
instead of an unbounded stream; and when the producer carries at least
`len` elements those are exactly the elements the pre-cycle iterator
yields. -/
theorem c10_iteration_truncates_at_len {α : Type} (it : Producers.ExactSizedIter α)
    (h : 0 ≤ it.len) :
    ((Producers.ExactSizedIter.iterate it).length : Int) ≤ it.len ∧
      (it.gen ≠ [] → (Producers.ExactSizedIter.cycleIterate it).length = it.len.toNat) ∧
      (it.len.toNat ≤ it.gen.length →
        Producers.ExactSizedIter.cycleIterate it = Producers.ExactSizedIter.iterate it) := by
  have hiter : Producers.ExactSizedIter.iterate it = it.gen.take it.len.toNat := by
    rw [Producers.ExactSizedIter.iterate, Producers.takeAux_eq_take _ _ 0 le_rfl h]
    norm_num
  refine ⟨?_, fun hg => Producers.cycleTake_length it.gen _ hg, fun hle => ?_⟩
  · rw [hiter, List.length_take]
    omega
  · rw [Producers.ExactSizedIter.cycleIterate, Producers.cycleTake_of_le _ _ hle, hiter]

/-- Witness for C10 at the length-3 iterator over `[1, 2, 3]`. -/
theorem c10_iteration_truncates_at_len_witness :
    ((Producers.ExactSizedIter.iterate (⟨[1, 2, 3], 3⟩ : Producers.ExactSizedIter Int)).length : Int) ≤ 3 ∧
      (Producers.ExactSizedIter.cycleIterate (⟨[1, 2, 3], 3⟩ : Producers.ExactSizedIter Int)).length =
        (3 : Int).toNat ∧
      Producers.ExactSizedIter.cycleIterate (⟨[1, 2, 3], 3⟩ : Producers.ExactSizedIter Int) =
        Producers.ExactSizedIter.iterate (⟨[1, 2, 3], 3⟩ : Producers.ExactSizedIter Int) :=
  ⟨(c10_iteration_truncates_at_len _ (by norm_num)).1,
   (c10_iteration_truncates_at_len _ (by norm_num)).2.1 (by decide),
   (c10_iteration_truncates_at_len _ (by norm_num)).2.2 (by decide)⟩
